import Mathlib

/-!
Verification of the numerical core of `run3/flow/flow_analysis_utils.py`.

The Python functions are shallowly embedded in Lean:
* floating-point values are modelled as elements of a linear ordered field
  (instantiated at `ℝ` in the theorems, with `Real.sqrt` for `np.sqrt` and
  `Real.pi` for `np.pi`);
* `sys.exit` (a fatal, non-returning termination) is modelled by `Option`:
  a normal return is `some`, a fatal exit is `none`;
* ROOT histogram names are modelled as `List Char` (the character data of
  the Python `str`), with `strRemove` playing the role of
  `str.replace(pat, '')` and `occursIn` the role of the `in` substring test;
* ROOT objects themselves (TH2D, THnSparse, TFile) are external
  collaborators: what the core reads from them (axis bin lookup, projection
  means and mean errors) is abstracted as a structure of query functions.
-/

namespace Flow

section Numeric

variable {α : Type} [LinearOrderedField α]

/-- Embedding of `compute_resolution` (flow_analysis_utils.py, lines 184-213).
`sqrt` stands for `np.sqrt`; the `none` result models `sys.exit(1)`. -/
def compute_resolution (sqrt : α → α) (subMean : List α) : Option α :=
  match subMean with
  | [m] =>
      if m ≤ 0 then some 0 else some (sqrt m)
  | [ab, ac, bc] =>
      let resolution : α := if bc ≠ 0 then ab * ac / bc else 0
      if resolution ≤ 0 then some 0 else some (sqrt resolution)
  | _ => none

/-- Embedding of the numeric tail of `compute_r2` (lines 305-311): the three
projection means are inputs, the file/projection machinery being the external
Binned Dataset Accessor. -/
def compute_r2 (sqrt : α → α) (avAB avAC avBC : α) : α :=
  let reso : α := if avBC ≠ 0 then avAB * avAC / avBC else -999
  if reso > 0 then sqrt reso else -999

/-- The propagated variance of the anisotropy in `get_ep_vn`
(lines 464-469): derivative-squared terms plus the correlation cross term. -/
def anisVariance (nIn nInUnc nOut nOutUnc corr : α) : α :=
  let anisDerivIn := 2 * nOut / ((nIn + nOut) * (nIn + nOut))
  let anisDerivOut := -2 * nIn / ((nIn + nOut) * (nIn + nOut))
  anisDerivIn * anisDerivIn * nInUnc * nInUnc +
    anisDerivOut * anisDerivOut * nOutUnc * nOutUnc +
    2 * anisDerivIn * anisDerivOut * nInUnc * nOutUnc * corr

/-- Embedding of `get_ep_vn` (lines 434-478). `sqrt` stands for `np.sqrt`
and `pi` for `np.pi`; the Python defaults are `resol = 1`, `corr = 0`. -/
def get_ep_vn (sqrt : α → α) (pi : α)
    (harmonic nIn nInUnc nOut nOutUnc resol corr : α) : α × α :=
  if nIn + nOut = 0 then (0, 0)
  else
    let anis := (nIn - nOut) / (nIn + nOut)
    let anisunc := anisVariance nIn nInUnc nOut nOutUnc corr
    if anisunc < 0 then (0, 0)
    else
      (pi * anis / (harmonic * harmonic * resol),
       pi * sqrt anisunc / (harmonic * harmonic * resol))

end Numeric

section Triplets

/-- Fuel-driven worker for `strRemove`; with fuel `s.length + 1` it removes
every non-overlapping occurrence of `pat` from `s`, left to right, exactly as
Python `s.replace(pat, '')` does for a non-empty `pat`. -/
def strRemoveAux : Nat → List Char → List Char → List Char
  | _, s, [] => s
  | 0, s, _ => s
  | fuel + 1, s, p :: ps =>
      match s with
      | [] => []
      | c :: cs =>
          if (p :: ps).isPrefixOf (c :: cs) then
            strRemoveAux fuel ((c :: cs).drop (p :: ps).length) (p :: ps)
          else c :: strRemoveAux fuel cs (p :: ps)

/-- Embedding of Python `s.replace(pat, '')` on the character data of the
strings (all patterns used by `getListOfHisots` are non-empty). -/
def strRemove (s pat : List Char) : List Char :=
  strRemoveAux (s.length + 1) s pat

/-- Embedding of the Python substring test `pat in s`. -/
def occursIn (pat s : List Char) : Bool :=
  s.tails.any fun t => pat.isPrefixOf t

/-- The six canonical detector labels `detsA` of `getListOfHisots`
(line 167), as character data. -/
def detsA : List (List Char) :=
  ["FT0c".data, "FT0a".data, "FV0a".data, "TPCpos".data, "FT0m".data,
   "TPCneg".data]

/-- The two histogram-name prefixes used by `getListOfHisots`
(lines 153 and 156). -/
def resoPrefixes : List (List Char) :=
  ["hSpReso".data, "hEpReso".data]

/-- The acceptance test of `getListOfHisots` (lines 174-178) for one
candidate label `detA` against the record-name triplet `(t0, t1, t2)`:
`detB` is `t0` with the prefix and `detA` removed, `detC` is `t1` with the
prefix and `detA` removed, and all six substring conditions must hold. -/
def tripletCond (pre detA t0 t1 t2 : List Char) : Bool :=
  occursIn detA t0 && occursIn detA t1 &&
    (occursIn (strRemove (strRemove t0 pre) detA) t0 &&
     occursIn (strRemove (strRemove t0 pre) detA) t2) &&
    (occursIn (strRemove (strRemove t1 pre) detA) t1 &&
     occursIn (strRemove (strRemove t1 pre) detA) t2)

/-- The `(detA, detB, detC)` assignments emitted for one record-name triplet
by the inner loop of `getListOfHisots` (lines 173-180): one entry per
canonical label passing `tripletCond`, in `detsA` order. -/
def tripletAssignments (pre : List Char) (t : List Char × List Char × List Char) :
    List (List Char × List Char × List Char) :=
  detsA.filterMap fun detA =>
    if tripletCond pre detA t.1 t.2.1 t.2.2 then
      some (detA, strRemove (strRemove t.1 pre) detA,
            strRemove (strRemove t.2.1 pre) detA)
    else none

/-- Ordered 2-combinations of a list, in `itertools.combinations` order. -/
def combinations2 {β : Type} : List β → List (β × β)
  | [] => []
  | x :: xs => (xs.map fun y => (x, y)) ++ combinations2 xs

/-- Ordered 3-combinations of a list, in `itertools.combinations` order. -/
def combinations3 {β : Type} : List β → List (β × β × β)
  | [] => []
  | x :: xs => ((combinations2 xs).map fun p => (x, p.1, p.2)) ++ combinations3 xs

/-- Embedding of the triplet-resolution loop of `getListOfHisots`
(lines 165-182): every 3-combination of record names paired with each
accepted `(detA, detB, detC)` assignment.  The parallel lists
`correct_histo_triplets` / `correct_histo_labels` of the Python code are
modelled as one list of (name-triplet, label-triplet) pairs; the histogram
objects themselves are external and keyed by the names. -/
def getListOfHisots (pre : List Char) (pairs : List (List Char)) :
    List ((List Char × List Char × List Char) ×
          (List Char × List Char × List Char)) :=
  (combinations3 pairs).flatMap fun t =>
    (tripletAssignments pre t).map fun lbl => (t, lbl)

end Triplets

section Projector

/-- External Binned Dataset Accessor interface used by `get_vn_versus_mass`
(lines 31-47): `findBin` is `FindBin` on the mass axis of the vn-vs-mass
projection, and `profileMean` / `profileMeanError` are the mean and standard
error of the mean of the secondary-observable marginal (`ProfileY`)
restricted to a native-bin range `[binLow, binHigh]`. -/
structure Hist2D (α : Type) where
  findBin : α → Int
  profileMean : Int → Int → α
  profileMeanError : Int → Int → α

/-- Embedding of `get_vn_versus_mass` (lines 31-54): the output TH1D with
`len(inv_mass_bins) - 1` bins is modelled as a list of (content, error)
pairs, freshly zero-initialised and filled bin by bin by the loop
(`SetBinContent` / `SetBinError` on bin `i + 1` is entry `i`). -/
def get_vn_versus_mass {α : Type} [LinearOrderedField α] (hist : Hist2D α)
    (inv_mass_bins : List α) : List (α × α) :=
  (List.range (inv_mass_bins.length - 1)).foldl
    (fun acc i =>
      acc.set i
        (hist.profileMean (hist.findBin (inv_mass_bins.getD i 0))
           (hist.findBin (inv_mass_bins.getD (i + 1) 0)),
         hist.profileMeanError (hist.findBin (inv_mass_bins.getD i 0))
           (hist.findBin (inv_mass_bins.getD (i + 1) 0))))
    (List.replicate (inv_mass_bins.length - 1) (0, 0))

end Projector

/-- C1: for a 3-element input `(AB, AC, BC)`, `compute_resolution` returns
`sqrt ((AB * AC) / BC)` when `BC ≠ 0` and the product `(AB * AC) / BC` is
strictly positive, and returns exactly `0` otherwise — in particular `0`
whenever `BC = 0` and `0` for any non-positive product. -/
theorem compute_resolution_three (ab ac bc : ℝ) :
    compute_resolution Real.sqrt [ab, ac, bc] =
      some (if bc ≠ 0 ∧ 0 < ab * ac / bc then Real.sqrt (ab * ac / bc) else 0) := by
  by_cases hbc : bc = 0
  · simp [compute_resolution, hbc]
  · by_cases hpos : 0 < ab * ac / bc
    · simp [compute_resolution, hbc, hpos, not_le.mpr hpos]
    · simp [compute_resolution, hbc, hpos, le_of_not_lt hpos]

/-- C2: for a 1-element input, `compute_resolution` returns `sqrt mean` when
the single mean is strictly positive, and exactly `0` when it is `≤ 0`. -/
theorem compute_resolution_one (m : ℝ) :
    compute_resolution Real.sqrt [m] =
      some (if 0 < m then Real.sqrt m else 0) := by
  by_cases hm : 0 < m
  · simp [compute_resolution, hm, not_le.mpr hm]
  · simp [compute_resolution, hm, le_of_not_lt hm]

/-- C3: called with a list whose length is neither 1 nor 3 (in particular a
2-element list), `compute_resolution` terminates fatally (`sys.exit(1)`,
modelled by `none`) instead of returning a value. -/
theorem compute_resolution_invalid_length (l : List ℝ)
    (h1 : l.length ≠ 1) (h3 : l.length ≠ 3) :
    compute_resolution Real.sqrt l = none := by
  match l with
  | [] => rfl
  | [_] => exact absurd rfl h1
  | [_, _] => rfl
  | [_, _, _] => exact absurd rfl h3
  | _ :: _ :: _ :: _ :: _ => rfl

/-- Witness for C3: the 2-element input `[1, 2]` is fatal. -/
theorem compute_resolution_invalid_length_witness :
    compute_resolution Real.sqrt [1, 2] = none :=
  compute_resolution_invalid_length [1, 2] (by simp) (by simp)

/-- Bool helper: the acceptance test is invariant under interchanging the
first two records once the roles of B and C are interchanged. -/
theorem bool_and_swap : ∀ a b c d e f : Bool,
    (b && a && (e && f) && (c && d)) = (a && b && (c && d) && (e && f)) := by
  decide

/-- C7 (amended): swapping the first two records of a combination yields the
same accepted/rejected decision with the resolved `B` and `C` interchanged
(`A` unchanged); invariance under arbitrary permutations does not hold. -/
theorem tripletAssignments_swap01 (pre t0 t1 t2 : List Char) :
    tripletAssignments pre (t1, t0, t2) =
      (tripletAssignments pre (t0, t1, t2)).map fun x => (x.1, x.2.2, x.2.1) := by
  unfold tripletAssignments
  rw [List.map_filterMap]
  apply List.filterMap_congr
  intro detA _
  have hcond : tripletCond pre detA t1 t0 t2 = tripletCond pre detA t0 t1 t2 :=
    bool_and_swap (occursIn detA t0) (occursIn detA t1)
      (occursIn (strRemove (strRemove t0 pre) detA) t0)
      (occursIn (strRemove (strRemove t0 pre) detA) t2)
      (occursIn (strRemove (strRemove t1 pre) detA) t1)
      (occursIn (strRemove (strRemove t1 pre) detA) t2)
  simp only [hcond]
  by_cases h : tripletCond pre detA t0 t1 t2 <;> simp [h]

/-- Counterexample to C7 as stated: for the records
`hSpResoFT0cFT0a`, `hSpResoFT0cFV0a`, `hSpResoFT0aFT0c` the combination is
rejected, but after permuting the last two records it is accepted (with
assignment `(FT0a, FT0c, FT0c)`), so neither the accepted/rejected decision
nor the resolved assignment is invariant under permutation. -/
theorem tripletAssignments_not_perm_invariant :
    tripletAssignments "hSpReso".data
        ("hSpResoFT0cFT0a".data, "hSpResoFT0cFV0a".data,
         "hSpResoFT0aFT0c".data) = [] ∧
      tripletAssignments "hSpReso".data
        ("hSpResoFT0cFT0a".data, "hSpResoFT0aFT0c".data,
         "hSpResoFT0cFV0a".data) =
        [("FT0a".data, "FT0c".data, "FT0c".data)] := by
  decide

/-- The canonical label list contains no duplicates. -/
theorem detsA_nodup : detsA.Nodup := by decide

/-- On a well-formed record name (prefix, then two canonical labels) a
canonical label occurs as a substring exactly when it is one of the two
components: no occurrence spans the boundaries. -/
theorem occursIn_label : ∀ pre ∈ resoPrefixes, ∀ L ∈ detsA, ∀ X ∈ detsA,
    ∀ Y ∈ detsA, occursIn L (pre ++ X ++ Y) = (L == X || L == Y) := by
  decide

/-- Removing the prefix from a well-formed record name leaves exactly the
two concatenated labels. -/
theorem strRemove_pre : ∀ pre ∈ resoPrefixes, ∀ X ∈ detsA, ∀ Y ∈ detsA,
    strRemove (pre ++ X ++ Y) pre = X ++ Y := by
  decide

/-- Removing a canonical label from a concatenation of two distinct
canonical labels leaves the other label (or everything, if it is neither). -/
theorem strRemove_label : ∀ L ∈ detsA, ∀ X ∈ detsA, ∀ Y ∈ detsA, X ≠ Y →
    strRemove (X ++ Y) L =
      if L = X then Y else if L = Y then X else X ++ Y := by
  decide

/-- If the acceptance test passes for label `A` on well-formed record names
`pre⬝X0⬝Y0`, `pre⬝X1⬝Y1`, `pre⬝X2⬝Y2`, then `A` is a component of the first
two pairs and the respective other components are components of the third
pair. -/
theorem tripletCond_extract
    (pre A X0 Y0 X1 Y1 X2 Y2 : List Char)
    (hpre : pre ∈ resoPrefixes) (hA : A ∈ detsA)
    (hX0 : X0 ∈ detsA) (hY0 : Y0 ∈ detsA) (hX1 : X1 ∈ detsA) (hY1 : Y1 ∈ detsA)
    (hX2 : X2 ∈ detsA) (hY2 : Y2 ∈ detsA)
    (h0 : X0 ≠ Y0) (h1 : X1 ≠ Y1)
    (hc : tripletCond pre A (pre ++ X0 ++ Y0) (pre ++ X1 ++ Y1)
            (pre ++ X2 ++ Y2) = true) :
    (A = X0 ∨ A = Y0) ∧ (A = X1 ∨ A = Y1) ∧
      ((if A = X0 then Y0 else X0) = X2 ∨ (if A = X0 then Y0 else X0) = Y2) ∧
      ((if A = X1 then Y1 else X1) = X2 ∨ (if A = X1 then Y1 else X1) = Y2) := by
  unfold tripletCond at hc
  rw [strRemove_pre pre hpre X0 hX0 Y0 hY0,
      strRemove_pre pre hpre X1 hX1 Y1 hY1,
      strRemove_label A hA X0 hX0 Y0 hY0 h0,
      strRemove_label A hA X1 hX1 Y1 hY1 h1,
      occursIn_label pre hpre A hA X0 hX0 Y0 hY0,
      occursIn_label pre hpre A hA X1 hX1 Y1 hY1] at hc
  simp only [Bool.and_eq_true, Bool.or_eq_true, beq_iff_eq] at hc
  obtain ⟨⟨⟨h01, h11⟩, -, hB2⟩, -, hC2⟩ := hc
  refine ⟨h01, h11, ?_, ?_⟩
  · rcases h01 with hAX | hAY
    · rw [if_pos hAX] at hB2 ⊢
      rw [occursIn_label pre hpre Y0 hY0 X2 hX2 Y2 hY2] at hB2
      simpa using hB2
    · have hnx : ¬A = X0 := fun h => h0 (h.symm.trans hAY)
      rw [if_neg hnx, if_pos hAY] at hB2
      rw [if_neg hnx]
      rw [occursIn_label pre hpre X0 hX0 X2 hX2 Y2 hY2] at hB2
      simpa using hB2
  · rcases h11 with hAX | hAY
    · rw [if_pos hAX] at hC2 ⊢
      rw [occursIn_label pre hpre Y1 hY1 X2 hX2 Y2 hY2] at hC2
      simpa using hC2
    · have hnx : ¬A = X1 := fun h => h1 (h.symm.trans hAY)
      rw [if_neg hnx, if_pos hAY] at hC2
      rw [if_neg hnx]
      rw [occursIn_label pre hpre X1 hX1 X2 hX2 Y2 hY2] at hC2
      simpa using hC2

/-- Two distinct elements both belonging to an ordered pair force the pair
to be those two elements, in one of the two orders. -/
theorem pair_forced {γ : Type} (A B X Y : γ) (hne : A ≠ B)
    (h1 : A = X ∨ A = Y) (h2 : B = X ∨ B = Y) :
    (X = A ∧ Y = B) ∨ (X = B ∧ Y = A) := by
  rcases h1 with h1 | h1 <;> rcases h2 with h2 | h2
  · exact absurd (h1.trans h2.symm) hne
  · exact Or.inl ⟨h1.symm, h2.symm⟩
  · exact Or.inr ⟨h2.symm, h1.symm⟩
  · exact absurd (h1.trans h2.symm) hne

/-- At most one canonical label passes the acceptance test on three
pairwise-distinct well-formed record names. -/
theorem tripletCond_unique
    (pre A B X0 Y0 X1 Y1 X2 Y2 : List Char)
    (hpre : pre ∈ resoPrefixes) (hA : A ∈ detsA) (hB : B ∈ detsA)
    (hX0 : X0 ∈ detsA) (hY0 : Y0 ∈ detsA) (hX1 : X1 ∈ detsA) (hY1 : Y1 ∈ detsA)
    (hX2 : X2 ∈ detsA) (hY2 : Y2 ∈ detsA)
    (hne0 : X0 ≠ Y0) (hne1 : X1 ≠ Y1)
    (hd01 : ¬(X0 = X1 ∧ Y0 = Y1)) (hd02 : ¬(X0 = X2 ∧ Y0 = Y2))
    (hd12 : ¬(X1 = X2 ∧ Y1 = Y2))
    (hcA : tripletCond pre A (pre ++ X0 ++ Y0) (pre ++ X1 ++ Y1)
             (pre ++ X2 ++ Y2) = true)
    (hcB : tripletCond pre B (pre ++ X0 ++ Y0) (pre ++ X1 ++ Y1)
             (pre ++ X2 ++ Y2) = true) :
    A = B := by
  by_contra hAB
  obtain ⟨ha0, ha1, ha2, ha3⟩ :=
    tripletCond_extract pre A X0 Y0 X1 Y1 X2 Y2 hpre hA hX0 hY0 hX1 hY1
      hX2 hY2 hne0 hne1 hcA
  obtain ⟨hb0, hb1, hb2, hb3⟩ :=
    tripletCond_extract pre B X0 Y0 X1 Y1 X2 Y2 hpre hB hX0 hY0 hX1 hY1
      hX2 hY2 hne0 hne1 hcB
  have p0 := pair_forced A B X0 Y0 hAB ha0 hb0
  have p1 := pair_forced A B X1 Y1 hAB ha1 hb1
  -- the "other" component of pair 0 relative to A is B, and it lies in pair 2
  have hBin2 : B = X2 ∨ B = Y2 := by
    rcases p0 with ⟨hx, hy⟩ | ⟨hx, hy⟩
    · rwa [if_pos hx.symm, hy] at ha2
    · rw [if_neg (fun h => hAB (h.trans hx))] at ha2
      rwa [hx] at ha2
  have hAin2 : A = X2 ∨ A = Y2 := by
    rcases p0 with ⟨hx, hy⟩ | ⟨hx, hy⟩
    · rw [if_neg (fun h => hAB (h.trans hx).symm)] at hb2
      rwa [hx] at hb2
    · rwa [if_pos hx.symm, hy] at hb2
  have p2 := pair_forced A B X2 Y2 hAB hAin2 hBin2
  rcases p0 with ⟨h1, h2⟩ | ⟨h1, h2⟩ <;>
    rcases p1 with ⟨h3, h4⟩ | ⟨h3, h4⟩ <;>
      rcases p2 with ⟨h5, h6⟩ | ⟨h5, h6⟩ <;>
        first
          | exact hd01 ⟨h1.trans h3.symm, h2.trans h4.symm⟩
          | exact hd02 ⟨h1.trans h5.symm, h2.trans h6.symm⟩
          | exact hd12 ⟨h3.trans h5.symm, h4.trans h6.symm⟩

/-- Counting helper: the emitted assignments of a `filterMap` guarded by a
Boolean test are as many as the elements passing the test. -/
theorem length_filterMap_ite {γ δ : Type} (l : List γ) (p : γ → Bool)
    (g : γ → δ) :
    (l.filterMap fun a => if p a then some (g a) else none).length =
      l.countP p := by
  induction l with
  | nil => rfl
  | cons a l ih =>
    by_cases h : p a <;>
      simp [List.filterMap_cons, h, ih, List.countP_cons]

/-- Counting helper: a duplicate-free list on which the test holds for at
most one common value has `countP` at most 1. -/
theorem countP_le_one {γ : Type} (l : List γ) (p : γ → Bool) (hnd : l.Nodup)
    (huniq : ∀ a ∈ l, ∀ b ∈ l, p a = true → p b = true → a = b) :
    l.countP p ≤ 1 := by
  induction l with
  | nil => simp
  | cons a l ih =>
    rw [List.countP_cons]
    rw [List.nodup_cons] at hnd
    by_cases h : p a
    · have hz : l.countP p = 0 := by
        rw [List.countP_eq_zero]
        intro b hb hpb
        exact absurd (huniq b (List.mem_cons_of_mem a hb) a
          (List.mem_cons_self a l) hpb h ▸ hb) hnd.1
      simp [h, hz]
    · simpa [h] using ih hnd.2
        (fun x hx y hy => huniq x (List.mem_cons_of_mem a hx) y
          (List.mem_cons_of_mem a hy))

/-- C8: on pairwise-distinct well-formed record names, the label-matching
rule emits at most one accepted `(A, B, C)` assignment per 3-combination;
a combination with no consistent assignment over the six canonical labels
contributes nothing, and if no combination is accepted the resolver yields
the empty result. -/
theorem getListOfHisots_unique_assignment
    (pre X0 Y0 X1 Y1 X2 Y2 : List Char)
    (hpre : pre ∈ resoPrefixes)
    (hX0 : X0 ∈ detsA) (hY0 : Y0 ∈ detsA) (hX1 : X1 ∈ detsA) (hY1 : Y1 ∈ detsA)
    (hX2 : X2 ∈ detsA) (hY2 : Y2 ∈ detsA)
    (hne0 : X0 ≠ Y0) (hne1 : X1 ≠ Y1) (hne2 : X2 ≠ Y2)
    (hd01 : pre ++ X0 ++ Y0 ≠ pre ++ X1 ++ Y1)
    (hd02 : pre ++ X0 ++ Y0 ≠ pre ++ X2 ++ Y2)
    (hd12 : pre ++ X1 ++ Y1 ≠ pre ++ X2 ++ Y2) :
    (tripletAssignments pre
        (pre ++ X0 ++ Y0, pre ++ X1 ++ Y1, pre ++ X2 ++ Y2)).length ≤ 1 ∧
      ∀ pairs : List (List Char),
        (∀ t ∈ combinations3 pairs, tripletAssignments pre t = []) →
        getListOfHisots pre pairs = [] := by
  constructor
  · unfold tripletAssignments
    rw [length_filterMap_ite]
    apply countP_le_one _ _ detsA_nodup
    intro a ha b hb hpa hpb
    exact tripletCond_unique pre a b X0 Y0 X1 Y1 X2 Y2 hpre ha hb
      hX0 hY0 hX1 hY1 hX2 hY2 hne0 hne1
      (fun h => hd01 (by rw [h.1, h.2])) (fun h => hd02 (by rw [h.1, h.2]))
      (fun h => hd12 (by rw [h.1, h.2])) hpa hpb
  · intro pairs hall
    unfold getListOfHisots
    rw [List.flatMap_eq_nil_iff]
    intro t ht
    rw [hall t ht]
    rfl

/-- Witness for C8: the well-formed, pairwise-distinct records
`hSpResoFT0cFT0a`, `hSpResoFT0cFV0a`, `hSpResoFT0aFV0a` admit at most one
assignment. -/
theorem getListOfHisots_unique_assignment_witness :
    (tripletAssignments "hSpReso".data
        ("hSpReso".data ++ "FT0c".data ++ "FT0a".data,
         "hSpReso".data ++ "FT0c".data ++ "FV0a".data,
         "hSpReso".data ++ "FT0a".data ++ "FV0a".data)).length ≤ 1 :=
  (getListOfHisots_unique_assignment "hSpReso".data "FT0c".data "FT0a".data
    "FT0c".data "FV0a".data "FT0a".data "FV0a".data
    (by decide) (by decide) (by decide) (by decide) (by decide) (by decide)
    (by decide) (by decide) (by decide) (by decide) (by decide) (by decide)
    (by decide)).1

/-- C4: `get_ep_vn` returns exactly `(0, 0)` when `nIn + nOut = 0`, and also
when the propagated variance (derivative-squared terms plus the correlation
cross term) is negative; in both cases it returns normally (no exception). -/
theorem get_ep_vn_degenerate (n nIn nInUnc nOut nOutUnc resol corr : ℝ)
    (h : nIn + nOut = 0 ∨ anisVariance nIn nInUnc nOut nOutUnc corr < 0) :
    get_ep_vn Real.sqrt Real.pi n nIn nInUnc nOut nOutUnc resol corr = (0, 0) := by
  rcases h with h0 | hneg
  · simp [get_ep_vn, h0]
  · by_cases h0 : nIn + nOut = 0
    · simp [get_ep_vn, h0]
    · simp [get_ep_vn, h0, hneg]

/-- Witness for C4: `nIn = nOut = 0` hits the zero-total guard, and
`nIn = nOut = 1`, `nInUnc = nOutUnc = 1`, `corr = 2` makes the propagated
variance negative; both give `(0, 0)`. -/
theorem get_ep_vn_degenerate_witness :
    get_ep_vn Real.sqrt Real.pi 2 0 1 0 1 1 0 = (0, 0) ∧
      get_ep_vn Real.sqrt Real.pi 2 1 1 1 1 1 2 = (0, 0) :=
  ⟨get_ep_vn_degenerate 2 0 1 0 1 1 0 (Or.inl (by norm_num)),
   get_ep_vn_degenerate 2 1 1 1 1 1 2 (Or.inr (by norm_num [anisVariance]))⟩

/-- C5: for a nonzero harmonic, nonzero resolution, `nIn + nOut ≠ 0` and
non-negative propagated variance, `get_ep_vn` returns
`vn = (π * A) / (n² * resol)` with `A = (nIn - nOut) / (nIn + nOut)`, and the
uncertainty is the square root of the propagated variance scaled by the same
factor `π / (n² * resol)`. -/
theorem get_ep_vn_formula (n nIn nInUnc nOut nOutUnc resol corr : ℝ)
    (hn : n ≠ 0) (hres : resol ≠ 0) (h0 : nIn + nOut ≠ 0)
    (hvar : 0 ≤ anisVariance nIn nInUnc nOut nOutUnc corr) :
    get_ep_vn Real.sqrt Real.pi n nIn nInUnc nOut nOutUnc resol corr =
      (Real.pi * ((nIn - nOut) / (nIn + nOut)) / (n * n * resol),
       Real.pi * Real.sqrt (anisVariance nIn nInUnc nOut nOutUnc corr) /
         (n * n * resol)) := by
  simp [get_ep_vn, h0, not_lt.mpr hvar]

/-- Witness for C5: `get_ep_vn(2, nIn=10, nInUnc=1, nOut=10, nOutUnc=1,
resol=1, corr=0)` gives anisotropy `0`, hence `vn = 0`, and uncertainty
`π * sqrt (2 * 0.0025) / 2²` (with `dA/dnIn = 0.05`, `dA/dnOut = -0.05`). -/
theorem get_ep_vn_formula_witness :
    get_ep_vn Real.sqrt Real.pi 2 10 1 10 1 1 0 =
      (0, Real.pi * Real.sqrt (2 * 0.0025) / (2 * 2)) := by
  have h := get_ep_vn_formula 2 10 1 10 1 1 0 (by norm_num) (by norm_num)
    (by norm_num) (by norm_num [anisVariance])
  rw [h]
  norm_num [anisVariance]

/-- C6: `compute_r2` returns the sentinel `-999` whenever the `(detB, detC)`
projection mean is exactly `0`, and whenever `(meanAB * meanAC) / meanBC` is
non-positive; otherwise it returns the square root of that product.  The
sentinel is `-999`, not `0`, and the function always returns (no raise). -/
theorem compute_r2_sentinel (avAB avAC avBC : ℝ) :
    compute_r2 Real.sqrt avAB avAC avBC =
      (if avBC ≠ 0 ∧ 0 < avAB * avAC / avBC
        then Real.sqrt (avAB * avAC / avBC) else -999) ∧
      (-999 : ℝ) ≠ 0 := by
  refine ⟨?_, by norm_num⟩
  by_cases hbc : avBC = 0
  · simp [compute_r2, hbc]
  · by_cases hpos : 0 < avAB * avAC / avBC
    · simp [compute_r2, hbc, hpos]
    · simp [compute_r2, hbc, hpos]

/-- C10 (implicit): whenever `nIn + nOut ≠ 0` and the correlation coefficient
lies in `[-1, 1]`, the propagated variance is non-negative: the
negative-variance error branch of `get_ep_vn` is unreachable and the square
root is defined. -/
theorem anisVariance_nonneg (nIn nInUnc nOut nOutUnc corr : ℝ)
    (h0 : nIn + nOut ≠ 0) (hc1 : -1 ≤ corr) (hc2 : corr ≤ 1) :
    0 ≤ anisVariance nIn nInUnc nOut nOutUnc corr := by
  have key : ∀ x y c : ℝ, -1 ≤ c → c ≤ 1 →
      0 ≤ x * x + y * y + 2 * (x * y) * c := by
    intro x y c h1 h2
    nlinarith [sq_nonneg (x + y), sq_nonneg (x - y), sq_nonneg x, sq_nonneg y]
  have h := key (2 * nOut / ((nIn + nOut) * (nIn + nOut)) * nInUnc)
    (-2 * nIn / ((nIn + nOut) * (nIn + nOut)) * nOutUnc) corr hc1 hc2
  unfold anisVariance
  ring_nf
  ring_nf at h
  linarith

/-- Witness for C10: at `nIn = nOut = 1`, unit uncertainties, `corr = 0` the
propagated variance is non-negative. -/
theorem anisVariance_nonneg_witness :
    0 ≤ anisVariance (1 : ℝ) 1 1 1 0 :=
  anisVariance_nonneg 1 1 1 1 0 (by norm_num) (by norm_num) (by norm_num)

/-- Filling helper: a fold that writes `f i` at index `i`, over `range n`,
preserves the length and sets every index below both `n` and the length. -/
theorem foldl_set_spec {β : Type} (f : Nat → β) (d : β) :
    ∀ (n : Nat) (init : List β),
      ((List.range n).foldl (fun acc i => acc.set i (f i)) init).length
          = init.length ∧
      ∀ i, i < n → i < init.length →
        ((List.range n).foldl (fun acc i => acc.set i (f i)) init).getD i d
          = f i := by
  intro n
  induction n with
  | zero =>
    intro init
    refine ⟨rfl, ?_⟩
    intro i hi _
    exact absurd hi (Nat.not_lt_zero i)
  | succ n ih =>
    intro init
    rw [List.range_succ, List.foldl_append]
    obtain ⟨hlen, hget⟩ := ih init
    constructor
    · simpa [List.length_set] using hlen
    · intro i hi hilen
      simp only [List.foldl_cons, List.foldl_nil]
      rw [List.getD_eq_getElem?_getD, List.getElem?_set]
      by_cases hin : n = i
      · subst hin
        rw [if_pos rfl, if_pos (by rw [hlen]; exact hilen)]
        rfl
      · rw [if_neg hin, ← List.getD_eq_getElem?_getD]
        exact hget i (by omega) hilen

/-- C9: for a mass-bin edge list with at least two elements, the produced
profile has exactly `len(inv_mass_bins) - 1` bins, and bin `i` holds the
mean (and standard error of the mean) of the secondary-observable marginal
restricted to the native-bin range found by nearest-matching-bin lookup of
edges `i` and `i + 1`. -/
theorem get_vn_versus_mass_profile {α : Type} [LinearOrderedField α]
    (hist : Hist2D α) (inv_mass_bins : List α)
    (h2 : 2 ≤ inv_mass_bins.length) :
    (get_vn_versus_mass hist inv_mass_bins).length =
        inv_mass_bins.length - 1 ∧
      ∀ i < inv_mass_bins.length - 1,
        (get_vn_versus_mass hist inv_mass_bins).getD i (0, 0) =
          (hist.profileMean (hist.findBin (inv_mass_bins.getD i 0))
             (hist.findBin (inv_mass_bins.getD (i + 1) 0)),
           hist.profileMeanError (hist.findBin (inv_mass_bins.getD i 0))
             (hist.findBin (inv_mass_bins.getD (i + 1) 0))) := by
  obtain ⟨hlen, hget⟩ :=
    foldl_set_spec
      (fun i =>
        (hist.profileMean (hist.findBin (inv_mass_bins.getD i 0))
           (hist.findBin (inv_mass_bins.getD (i + 1) 0)),
         hist.profileMeanError (hist.findBin (inv_mass_bins.getD i 0))
           (hist.findBin (inv_mass_bins.getD (i + 1) 0))))
      ((0 : α), (0 : α)) (inv_mass_bins.length - 1)
      (List.replicate (inv_mass_bins.length - 1) (0, 0))
  constructor
  · rw [get_vn_versus_mass, hlen, List.length_replicate]
  · intro i hi
    rw [get_vn_versus_mass]
    exact hget i hi (by rw [List.length_replicate]; exact hi)

/-- Witness for C9: a concrete three-edge list over a concrete accessor
yields a two-bin profile with the queried means. -/
theorem get_vn_versus_mass_profile_witness :
    (get_vn_versus_mass
        (Hist2D.mk (fun _ => 1) (fun _ _ => 2) (fun _ _ => 3))
        ([0, 1, 2] : List ℚ)).length = 2 :=
  (get_vn_versus_mass_profile
    (Hist2D.mk (fun _ => 1) (fun _ _ => 2) (fun _ _ => 3))
    ([0, 1, 2] : List ℚ) (by decide)).1

end Flow
